import Mathlib

/-!
Verification development for the chubs directed-dependency-graph core,
record store and babylon parser wrapper.

The graph engine (node store, trace engine, prune engine, pending-job
queue) is exercised by the repository's test suite but its implementation
files are not present; the definitions in the `Chubs` namespace are
modelled from the specification (sections 3, 4 and 8), with node-ids as
strings, node stores as lists of nodes and the asynchronous resolver
callback modelled as an explicit step `handleCallback`.
-/

namespace Chubs

/-- Modelled from the spec: a `Node` carries its name, dependency list,
dependent list and entry flag (spec section 3, "Node"). The spec speaks of
sets; insertion-ordered duplicate-free lists realise them and make the
event order observable. -/
structure Node where
  name : String
  dependencies : List String
  dependents : List String
  isEntryNode : Bool
deriving DecidableEq, Repr

/-- Insert a string into a list unless already present (set-like insert,
keeping insertion order). -/
def ins (l : List String) (x : String) : List String :=
  if l.contains x then l else l ++ [x]

/-- Modelled from the spec: the node store is a mapping from node-id to
node; realised as a list of nodes keyed by `Node.name`. -/
def lookupNode (s : List Node) (id : String) : Option Node :=
  s.find? (fun n => n.name == id)

/-- Whether a node with the given id is present in the store
(`is-node-defined`, spec section 4.6). -/
def containsNode (s : List Node) (id : String) : Bool :=
  s.any (fun n => n.name == id)

/-- Whether the node with the given id is marked as an entry node. -/
def isEntryName (s : List Node) (id : String) : Bool :=
  match lookupNode s id with
  | some n => n.isEntryNode
  | none => false

/-- The dependency list of the node with the given id (empty if absent). -/
def dependenciesOfName (s : List Node) (id : String) : List String :=
  match lookupNode s id with
  | some n => n.dependencies
  | none => []

/-- The dependent list of the node with the given id (empty if absent). -/
def dependentsOfName (s : List Node) (id : String) : List String :=
  match lookupNode s id with
  | some n => n.dependents
  | none => []

/-- Modelled from the spec: `add-node` (spec section 4.1) guarded so that
adding a present node leaves the store unchanged; the engine only calls it
on absent ids ("If `id` is not yet in the store, add it"). -/
def addNodeOp (s : List Node) (id : String) : List Node :=
  if containsNode s id then s else s ++ [⟨id, [], [], false⟩]

/-- Update one node for `add-edge head tail`: add `tail` to the
dependencies of the node named `head` and `head` to the dependents of the
node named `tail` (both updates on the same node when `head = tail`). -/
def updEdge (h t : String) (n : Node) : Node :=
  { n with
    dependencies := if n.name == h then ins n.dependencies t else n.dependencies,
    dependents := if n.name == t then ins n.dependents h else n.dependents }

/-- Modelled from the spec: `add-edge` (spec section 4.1); both endpoints
must exist, and adding an existing edge is a no-op. -/
def addEdgeOp (s : List Node) (h t : String) : List Node :=
  if containsNode s h && containsNode s t then s.map (updEdge h t) else s

/-- Modelled from the spec: `set-node-as-entry` (spec section 4.6). -/
def setEntryOp (s : List Node) (id : String) : List Node :=
  s.map (fun n => if n.name == id then { n with isEntryNode := true } else n)

/-- Modelled from the spec: `unset-node-as-entry` (spec section 4.6). -/
def unsetEntryOp (s : List Node) (id : String) : List Node :=
  s.map (fun n => if n.name == id then { n with isEntryNode := false } else n)

/-- Modelled from the spec: one line of the node-store text grammar
(spec section 6), given as the chain of ids on the line; `a -> b -> c`
declares each id and each consecutive edge, creating absent endpoints. -/
def addChain (s : List Node) : List String → List Node
  | [] => s
  | [x] => addNodeOp s x
  | x :: y :: rest => addChain (addEdgeOp (addNodeOp (addNodeOp s x) y) x y) (y :: rest)

/-- Modelled from the spec: build a node store from the text grammar of
spec section 6, each line given as its chain of ids. -/
def nodesFromChains (chains : List (List String)) : List Node :=
  chains.foldl addChain []

/-- Modelled from the spec: a pending job `{node-id, valid}`
(spec section 3, "Job"). -/
structure Job where
  node : String
  isValid : Bool
deriving DecidableEq, Repr

/-- Modelled from the spec: `is-pending` — some job for the id is still
valid (spec section 4.2). -/
def isNodePending (jobs : List Job) (id : String) : Bool :=
  jobs.any (fun j => j.node == id && j.isValid)

/-- Modelled from the spec: `any-valid` — some job is still valid
(spec section 4.2). -/
def anyValid (jobs : List Job) : Bool :=
  jobs.any (fun j => j.isValid)

/-- Modelled from the spec: flip `valid` to false on every job whose node
is in the given set (spec sections 4.2 and 4.4 step 3). -/
def invalidateForAll (jobs : List Job) (ids : List String) : List Job :=
  jobs.map (fun j => if ids.contains j.node then { j with isValid := false } else j)

/-- Modelled from the spec: the event stream — `traced`, `pruned`,
`error`, `complete` with their payloads (spec section 6). -/
inductive Event where
  | traced (node : String) (dependencies : List String)
  | pruned (node : String)
  | errored (node : String) (err : String)
  | complete
deriving DecidableEq, Repr

/-- Modelled from the spec: the completion predicate (spec section 4.3) —
a `complete` event exactly when the queue holds no valid job. -/
def completionEvents (jobs : List Job) : List Event :=
  if anyValid jobs then [] else [Event.complete]

/-- The node names carried by the `pruned` events of an event list. -/
def prunedEvents (evs : List Event) : List String :=
  evs.filterMap (fun e =>
    match e with
    | Event.pruned n => some n
    | _ => none)

/-- Modelled from the spec: the graph facade's state — the node-store
snapshot and the pending-job queue (spec sections 2 and 4.6). -/
structure GraphState where
  nodes : List Node
  pendingJobs : List Job
deriving DecidableEq, Repr

/-- Modelled from the spec: `trace-node` appends a fresh valid job; the
resolver call itself is external and its callback is a separate step
(spec section 4.3 steps 1-2). -/
def traceNode (g : GraphState) (id : String) : GraphState :=
  { g with pendingJobs := g.pendingJobs ++ [⟨id, true⟩] }

/-- Modelled from the spec: one frontier extension of the walk along
dependency edges. -/
def reachStep (s : List Node) (acc : List String) : List String :=
  acc.foldl (fun a c => (dependenciesOfName s c).foldl ins a) acc

/-- Iterate `reachStep` a fixed number of times. -/
def reachIter (s : List Node) : Nat → List String → List String
  | 0, acc => acc
  | n + 1, acc => reachIter s n (reachStep s acc)

/-- All ids reachable from `root` along dependency edges, in breadth-first
discovery order, `root` first. -/
def reachableFrom (s : List Node) (root : String) : List String :=
  reachIter s s.length [root]

/-- Modelled from the spec: one narrowing step of the orphan-set fixpoint
(spec section 4.4): a candidate stays iff it is the prune root, or it is
not an entry node and every one of its dependents is itself still a
candidate. -/
def orphanStep (s : List Node) (root : String) (c : List String) : List String :=
  c.filter (fun x =>
    x == root || (!isEntryName s x && (dependentsOfName s x).all (fun d => c.contains d)))

/-- Iterate `orphanStep` a fixed number of times. -/
def orphanIter (s : List Node) (root : String) : Nat → List String → List String
  | 0, c => c
  | n + 1, c => orphanIter s root n (orphanStep s root c)

/-- Modelled from the spec: the orphan set of `prune-node` (spec section
4.4) — the greatest set of ids reachable from the root such that every
member other than the root is a non-entry node all of whose dependents are
members; a dependency cycle whose external dependents are all members is
collectively removed. Computed by narrowing the reachable set to a
fixpoint. -/
def orphanSet (s : List Node) (root : String) : List String :=
  orphanIter s root ((reachableFrom s root).length + 1) (reachableFrom s root)

/-- Drop every reference to a removed node from one node's edge lists. -/
def trimNode (o : List String) (n : Node) : Node :=
  { n with
    dependencies := n.dependencies.filter (fun d => !o.contains d),
    dependents := n.dependents.filter (fun d => !o.contains d) }

/-- Modelled from the spec: removing the orphan set from the store also
detaches its edges (spec section 4.4 step 2). -/
def removeOrphans (s : List Node) (o : List String) : List Node :=
  (s.filter (fun n => !o.contains n.name)).map (trimNode o)

/-- The ids whose pending jobs a `prune-node` call invalidates: the orphan
set when the root is present, and the root alone when it is absent (jobs
for an absent root are still invalidated). -/
def pruneTargets (s : List Node) (id : String) : List String :=
  if containsNode s id then orphanSet s id else [id]

/-- Modelled from the spec: `prune-node` (spec section 4.4) — compute the
orphan set, remove it from the store, emit a `pruned` event per removed
node, invalidate every pending job whose node is in the set, then evaluate
the completion predicate. Pruning an absent node leaves the store alone
but still invalidates jobs for it and evaluates completion. -/
def pruneNode (g : GraphState) (id : String) : GraphState × List Event :=
  let targets := pruneTargets g.nodes id
  let s' := if containsNode g.nodes id then removeOrphans g.nodes targets else g.nodes
  let js := invalidateForAll g.pendingJobs targets
  let prunedEvs := if containsNode g.nodes id then targets.map Event.pruned else []
  (⟨s', js⟩, prunedEvs ++ completionEvents js)

/-- Modelled from the spec: fold one resolver result into the store and
queue (spec section 4.3 step 3, success case): for each dependency in
order, add it if absent, add the edge from the traced node, and enqueue a
recursive trace job when it was neither defined nor pending beforehand. -/
def consumeDeps (id : String) : List String → List Node → List Job → List Node × List Job
  | [], s, js => (s, js)
  | dep :: rest, s, js =>
    let wasDefined := containsNode s dep
    let s' := addEdgeOp (addNodeOp s dep) id dep
    let js' := if wasDefined || isNodePending js dep then js else js ++ [⟨dep, true⟩]
    consumeDeps id rest s' js'

/-- Modelled from the spec: the resolver callback step (spec section 4.3
step 3). Locate the first job matching the node-id; if it is no longer
valid (or missing) discard the result entirely. On an error, emit `error`
and invalidate the job; on success, install the node and its dependencies,
emit `traced`, and invalidate the consumed job. Either way evaluate the
completion predicate afterwards. -/
def handleFound (g : GraphState) (id : String) (res : Except String (List String)) :
    Option Job → GraphState × List Event
  | none => (g, [])
  | some j =>
    if j.isValid then
      match res with
      | Except.error e =>
        let js := invalidateForAll g.pendingJobs [id]
        (⟨g.nodes, js⟩, Event.errored id e :: completionEvents js)
      | Except.ok deps =>
        let sj := consumeDeps id deps (addNodeOp g.nodes id) g.pendingJobs
        let js := invalidateForAll sj.2 [id]
        (⟨sj.1, js⟩, Event.traced id deps :: completionEvents js)
    else (g, [])

/-- Modelled from the spec: the callback step locates the first pending
job matching the node-id and hands it to `handleFound`. -/
def handleCallback (g : GraphState) (id : String) (res : Except String (List String)) :
    GraphState × List Event :=
  handleFound g id res (g.pendingJobs.find? (fun j => j.node == id))

/-- The tournament scenario: complete directed graph among a, b, c, d with
`a` marked as entry (spec section 8 scenario 5). -/
def tournamentGraph : GraphState :=
  ⟨setEntryOp (nodesFromChains
    [["a", "b"], ["a", "c"], ["a", "d"],
     ["b", "a"], ["b", "c"], ["b", "d"],
     ["c", "a"], ["c", "b"], ["c", "d"],
     ["d", "a"], ["d", "b"], ["d", "c"]]) "a", []⟩

/-- The entry-anchors-sub-cycle scenario: `a -> b -> c -> d -> b` plus
`c -> b`, with `a` marked as entry (spec section 8 scenario 6). -/
def entrySubCycleGraph : GraphState :=
  ⟨setEntryOp (nodesFromChains [["a", "b", "c", "d", "b"], ["c", "b"]]) "a", []⟩

/-- The shared-dependent scenario: `a -> b` and `c -> b`, with both `a`
and `c` marked as entry (spec section 8 scenario 4). -/
def sharedDependentGraph : GraphState :=
  ⟨setEntryOp (setEntryOp (nodesFromChains [["a", "b"], ["c", "b"]]) "a") "c", []⟩

/-- Closure of the dependency lists: every listed dependency names a node
present in the store (spec section 3, "Closure"). -/
def ClosedDeps (s : List Node) : Prop :=
  ∀ n ∈ s, ∀ b ∈ n.dependencies, containsNode s b = true

/-- Closure of the dependent lists: every listed dependent names a node
present in the store. -/
def ClosedDepts (s : List Node) : Prop :=
  ∀ n ∈ s, ∀ b ∈ n.dependents, containsNode s b = true

/-- Edge symmetry between any two nodes of the store (spec section 3,
"Edge symmetry"). -/
def SymmStore (s : List Node) : Prop :=
  ∀ n ∈ s, ∀ m ∈ s, (m.name ∈ n.dependencies ↔ n.name ∈ m.dependents)

/-- The node-store invariant: unique names, closure of both edge lists,
and edge symmetry. -/
def StoreInv (s : List Node) : Prop :=
  (s.map Node.name).Nodup ∧ ClosedDeps s ∧ ClosedDepts s ∧ SymmStore s

/-- Graph states reachable by any sequence of operations: starting from
the empty graph or a store built from the text grammar, then tracing,
resolver callbacks, pruning, entry marking and unmarking, and direct job
pushes (as the tests perform). -/
inductive Reachable : GraphState → Prop where
  | empty : Reachable ⟨[], []⟩
  | fromChains (chains : List (List String)) : Reachable ⟨nodesFromChains chains, []⟩
  | trace (g : GraphState) (id : String) : Reachable g → Reachable (traceNode g id)
  | callback (g : GraphState) (id : String) (res : Except String (List String)) :
      Reachable g → Reachable (handleCallback g id res).1
  | prune (g : GraphState) (id : String) : Reachable g → Reachable (pruneNode g id).1
  | setEntry (g : GraphState) (id : String) :
      Reachable g → Reachable ⟨setEntryOp g.nodes id, g.pendingJobs⟩
  | unsetEntry (g : GraphState) (id : String) :
      Reachable g → Reachable ⟨unsetEntryOp g.nodes id, g.pendingJobs⟩
  | pushJob (g : GraphState) (j : Job) :
      Reachable g → Reachable ⟨g.nodes, g.pendingJobs ++ [j]⟩

/-- A record in the record store: its name and its reference token. In the
source the reference is a fresh object compared by strict equality
(record-store.js lines 161-168); a natural-number token models object
identity. -/
structure RSRecord where
  name : String
  reference : Nat
deriving DecidableEq, Repr

/-- The record-store state, keyed by record name. -/
def rsLookup (st : List RSRecord) (name : String) : Option RSRecord :=
  st.find? (fun r => r.name == name)

/-- A `Reference` snapshot handed to a job: the record's name and the
reference token the record carried when the request was made
(record-store.js lines 14-17 and 70-74). -/
structure RSReference where
  name : String
  reference : Nat
deriving DecidableEq, Repr

/-- The two intercept kinds: the record was removed from the state, or it
was recreated so its reference no longer matches. -/
inductive Intercept where
  | recordRemoved (name : String)
  | recordInvalid (name : String)
deriving DecidableEq, Repr

/-- Modelled from the spec: `createIntercept` lives in
`record-store/intercept.js`, which is absent from src; reconstructed from
its call sites in record-store.js and the exported predicates
`isRecordRemovedIntercept` / `isRecordInvalidIntercept`: it yields a
removed-intercept when the referenced record is no longer in the state, an
invalid-intercept when the record's reference object no longer matches the
reference snapshot, and nothing when the record is still valid. -/
def createIntercept (st : List RSRecord) (ref : RSReference) : Option Intercept :=
  match rsLookup st ref.name with
  | none => some (Intercept.recordRemoved ref.name)
  | some r =>
    if r.reference == ref.reference then none else some (Intercept.recordInvalid ref.name)

/-- The outcome surfaced to a caller: either an intercept value or
ordinary data. -/
inductive JobOutcome (α : Type) where
  | intercepted (i : Intercept)
  | data (a : α)
deriving DecidableEq, Repr

/-- The validity re-check run when the job function's promise resolves
(record-store.js lines 134-141, and again at lines 97-104 for the request
handler): given the state at resolution time, return an intercept if the
record is stale, else the resolved data. -/
def jobPostCheck {α : Type} (stateAtResolve : List RSRecord) (ref : RSReference) (data : α) :
    JobOutcome α :=
  match createIntercept stateAtResolve ref with
  | some i => JobOutcome.intercepted i
  | none => JobOutcome.data data

/-- Babylon parse options, with the fields the wrapper touches: only
`sourceType` is inspected; `none` at the outer level models a non-object
argument (parsers/babylon.js lines 4-14). -/
structure BabylonOptions where
  sourceType : Option String
deriving DecidableEq, Repr

/-- From parsers/babylon.js lines 4-14: replace a non-object argument by
an empty options object and default `sourceType` to "module" when it is
undefined. -/
def createBabylonOptions (options : Option BabylonOptions) : BabylonOptions :=
  match options with
  | none => { sourceType := some "module" }
  | some o =>
    match o.sourceType with
    | none => { o with sourceType := some "module" }
    | some _ => o

/-- One invocation of a node-style callback `(err, ast)`. -/
structure CbCall (ε α : Type) where
  err : Option ε
  ast : Option α
deriving DecidableEq, Repr

/-- From parsers/babylon.js lines 16-28: `buildBabylonAst` normalises the
options, calls `babylon.parse` inside a try block (the parser is a
parameter returning `Except`, its `error` case modelling a thrown
exception), and invokes the callback with the error on a parse failure or
with `(null, ast)` on success. The result is the list of callback
invocations the run performs, inside `Except`, whose `error` case would
model an exception escaping the function itself. -/
def buildBabylonAst {ε α : Type} (parse : String → BabylonOptions → Except ε α)
    (text : String) (options : Option BabylonOptions) : Except ε (List (CbCall ε α)) :=
  let opts := createBabylonOptions options
  match parse text opts with
  | Except.error e => Except.ok [⟨some e, none⟩]
  | Except.ok ast => Except.ok [⟨none, some ast⟩]

set_option maxRecDepth 100000

theorem complete_mem_completionEvents (jobs : List Job) :
    Event.complete ∈ completionEvents jobs ↔ anyValid jobs = false := by
  unfold completionEvents
  cases h : anyValid jobs <;> simp

theorem complete_not_mem_pruned_map (l : List String) :
    Event.complete ∉ l.map Event.pruned := by
  simp

/-- C3: on the complete directed graph over a, b, c, d with `a` marked as
entry, pruning `a` empties the node store and emits exactly four `pruned`
events, one per node. -/
theorem spec_c3 :
    (pruneNode tournamentGraph "a").1.nodes = [] ∧
    prunedEvents (pruneNode tournamentGraph "a").2 = ["a", "b", "c", "d"] := by
  decide

/-- C4: on the graph `a -> b -> c -> d -> b` plus `c -> b` with `a` as
entry, pruning `b` leaves only node `a` (entry, no dependencies) and emits
exactly three `pruned` events, for `b`, `c` and `d`. -/
theorem spec_c4 :
    (pruneNode entrySubCycleGraph "b").1.nodes = [⟨"a", [], [], true⟩] ∧
    prunedEvents (pruneNode entrySubCycleGraph "b").2 = ["b", "c", "d"] := by
  decide

/-- C6: on the graph `a -> b`, `c -> b` with `a` and `c` both entries,
pruning `a` emits exactly one `pruned` event (for `a`) while `b` and `c`
remain in the store, `b` keeping the dependent `c`. -/
theorem spec_c6 :
    (pruneNode sharedDependentGraph "a").1.nodes =
      [⟨"b", [], ["c"], false⟩, ⟨"c", ["b"], [], true⟩] ∧
    prunedEvents (pruneNode sharedDependentGraph "a").2 = ["a"] := by
  decide

/-- C2: a resolver callback whose first matching pending job is no longer
valid is discarded entirely: the state is unchanged and no event is
emitted. -/
theorem spec_c2 (g : GraphState) (id : String) (res : Except String (List String)) (j : Job)
    (hfind : g.pendingJobs.find? (fun j' => j'.node == id) = some j)
    (hinv : j.isValid = false) :
    handleCallback g id res = (g, []) := by
  unfold handleCallback
  rw [hfind]
  simp [handleFound, hinv]

theorem spec_c2_witness :
    handleCallback ⟨[], [⟨"a", false⟩]⟩ "a" (Except.ok ["b"]) = (⟨[], [⟨"a", false⟩]⟩, []) :=
  spec_c2 ⟨[], [⟨"a", false⟩]⟩ "a" (Except.ok ["b"]) ⟨"a", false⟩ (by decide) rfl

/-- C7: after `prune-node(id)`, every pending job whose node is among the
computed prune targets (the orphan set when the root is present, the root
alone when absent) is invalid. -/
theorem spec_c7 (g : GraphState) (id : String) (j : Job)
    (hj : j ∈ (pruneNode g id).1.pendingJobs)
    (ht : j.node ∈ pruneTargets g.nodes id) :
    j.isValid = false := by
  have hjobs : (pruneNode g id).1.pendingJobs
      = invalidateForAll g.pendingJobs (pruneTargets g.nodes id) := rfl
  rw [hjobs] at hj
  rcases List.mem_map.1 hj with ⟨j0, hj0, hEq⟩
  by_cases hm : j0.node ∈ pruneTargets g.nodes id
  · have hc : (pruneTargets g.nodes id).contains j0.node = true := by simpa using hm
    rw [hc] at hEq
    simp at hEq
    rw [← hEq]
  · have hc : (pruneTargets g.nodes id).contains j0.node = false := by simpa using hm
    rw [hc] at hEq
    simp at hEq
    rw [← hEq] at ht
    exact absurd ht hm

theorem spec_c7_witness : (Job.mk "a" false).isValid = false :=
  spec_c7 ⟨[], [⟨"a", true⟩]⟩ "a" ⟨"a", false⟩ (by decide) (by decide)

/-- C1: the `complete` event is emitted exactly when the pending-job
queue holds no valid job at the moment of emission, both after a resolver
callback with a valid job (consumption or invalidation) and after any
prune cascade. -/
theorem spec_c1 (g : GraphState) (id : String) (res : Except String (List String)) (j : Job)
    (id2 : String) :
    (g.pendingJobs.find? (fun j' => j'.node == id) = some j → j.isValid = true →
      (Event.complete ∈ (handleCallback g id res).2 ↔
        anyValid (handleCallback g id res).1.pendingJobs = false)) ∧
    (Event.complete ∈ (pruneNode g id2).2 ↔
      anyValid (pruneNode g id2).1.pendingJobs = false) := by
  constructor
  · intro hfind hval
    unfold handleCallback
    rw [hfind]
    cases res with
    | error e =>
      simp [handleFound, hval, complete_mem_completionEvents]
    | ok deps =>
      simp [handleFound, hval, complete_mem_completionEvents]
  · have e1 : (pruneNode g id2).2
        = (if containsNode g.nodes id2 then (pruneTargets g.nodes id2).map Event.pruned else [])
          ++ completionEvents (invalidateForAll g.pendingJobs (pruneTargets g.nodes id2)) := rfl
    have e2 : (pruneNode g id2).1.pendingJobs
        = invalidateForAll g.pendingJobs (pruneTargets g.nodes id2) := rfl
    rw [e1, e2, List.mem_append]
    by_cases hc : containsNode g.nodes id2 = true
    · simp [hc, complete_not_mem_pruned_map, complete_mem_completionEvents]
    · simp only [Bool.not_eq_true] at hc
      simp [hc, complete_mem_completionEvents]

theorem ins_subset (l : List String) (x : String) : l ⊆ ins l x := by
  unfold ins
  split
  · exact List.Subset.refl l
  · exact List.subset_append_left l [x]

theorem foldl_extends {β : Type} (f : List String → β → List String)
    (hf : ∀ x c, x ⊆ f x c) : ∀ (cs : List β) (x : List String), x ⊆ List.foldl f x cs := by
  intro cs
  induction cs with
  | nil => intro x; exact List.Subset.refl x
  | cons c cs ih => intro x; exact (hf x c).trans (ih (f x c))

theorem foldl_ins_extends (ds : List String) (l : List String) : l ⊆ List.foldl ins l ds :=
  foldl_extends ins (fun x c => ins_subset x c) ds l

theorem reachStep_extends (s : List Node) (acc : List String) : acc ⊆ reachStep s acc :=
  foldl_extends _ (fun x c => foldl_ins_extends (dependenciesOfName s c) x) acc acc

theorem mem_reachIter (s : List Node) (a : String) :
    ∀ (n : Nat) (acc : List String), a ∈ acc → a ∈ reachIter s n acc := by
  intro n
  induction n with
  | zero => intro acc h; exact h
  | succ n ih => intro acc h; exact ih (reachStep s acc) (reachStep_extends s acc h)

theorem root_mem_reachableFrom (s : List Node) (root : String) : root ∈ reachableFrom s root :=
  mem_reachIter s root s.length [root] (by simp)

theorem orphanStep_subset (s : List Node) (root : String) (c : List String) :
    orphanStep s root c ⊆ c :=
  List.filter_subset' c

theorem orphanIter_subset (s : List Node) (root : String) :
    ∀ (n : Nat) (c : List String), orphanIter s root n c ⊆ c := by
  intro n
  induction n with
  | zero => intro c; exact List.Subset.refl c
  | succ n ih => intro c; exact (ih (orphanStep s root c)).trans (orphanStep_subset s root c)

theorem root_mem_orphanStep (s : List Node) (root : String) (c : List String)
    (h : root ∈ c) : root ∈ orphanStep s root c := by
  refine List.mem_filter.2 ⟨h, ?_⟩
  simp

theorem root_mem_orphanIter (s : List Node) (root : String) :
    ∀ (n : Nat) (c : List String), root ∈ c → root ∈ orphanIter s root n c := by
  intro n
  induction n with
  | zero => intro c h; exact h
  | succ n ih => intro c h; exact ih (orphanStep s root c) (root_mem_orphanStep s root c h)

theorem root_mem_orphanSet (s : List Node) (root : String) : root ∈ orphanSet s root :=
  root_mem_orphanIter s root ((reachableFrom s root).length + 1) (reachableFrom s root)
    (root_mem_reachableFrom s root)

theorem mem_orphanSet_root_or_notEntry (s : List Node) (root a : String)
    (h : a ∈ orphanSet s root) : a = root ∨ isEntryName s a = false := by
  have h' : a ∈ orphanStep s root (reachableFrom s root) :=
    orphanIter_subset s root (reachableFrom s root).length (orphanStep s root (reachableFrom s root)) h
  rcases List.mem_filter.1 h' with ⟨-, hp⟩
  simp only [Bool.or_eq_true, Bool.and_eq_true, beq_iff_eq, Bool.not_eq_true'] at hp
  rcases hp with hp | ⟨hp, -⟩
  · exact Or.inl hp
  · exact Or.inr hp

theorem containsNode_removeOrphans_of_mem (s : List Node) (o : List String) (a : String)
    (h : a ∈ o) : containsNode (removeOrphans s o) a = false := by
  unfold containsNode removeOrphans
  refine List.any_eq_false.2 ?_
  intro x hx
  rcases List.mem_map.1 hx with ⟨n, hn, rfl⟩
  rcases List.mem_filter.1 hn with ⟨-, hp⟩
  simp only [Bool.not_eq_true'] at hp
  simp only [beq_iff_eq]
  intro hna
  have hna' : n.name = a := hna
  rw [hna'] at hp
  exact absurd h (by simpa using hp)

theorem containsNode_removeOrphans_of_surviving (s : List Node) (o : List String) (a : String)
    (n : Node) (hn : n ∈ s) (hna : n.name = a) (ha : a ∉ o) :
    containsNode (removeOrphans s o) a = true := by
  unfold containsNode removeOrphans
  refine List.any_eq_true.2 ?_
  refine ⟨_, List.mem_map_of_mem _ (List.mem_filter.2 ⟨hn, ?_⟩), ?_⟩
  · simp [hna, ha]
  · show ((trimNode o n).name == a) = true
    have he : (trimNode o n).name = n.name := rfl
    rw [he, hna]
    simp

/-- C5: `prune-node(id)` keeps every entry node other than `id` itself in
the store, while the named root is removed whenever it was present,
regardless of its entry marking. -/
theorem spec_c5 (g : GraphState) (id a : String) (n : Node) :
    (lookupNode g.nodes a = some n → n.isEntryNode = true → a ≠ id →
      containsNode (pruneNode g id).1.nodes a = true) ∧
    (containsNode g.nodes id = true → containsNode (pruneNode g id).1.nodes id = false) := by
  have e1 : (pruneNode g id).1.nodes
      = if containsNode g.nodes id then removeOrphans g.nodes (pruneTargets g.nodes id)
        else g.nodes := rfl
  constructor
  · intro hl he hne
    have hmem : n ∈ g.nodes := List.mem_of_find?_eq_some hl
    have hname : n.name = a := by
      have hb := List.find?_some hl
      simpa using hb
    rw [e1]
    by_cases hc : containsNode g.nodes id = true
    · rw [if_pos hc]
      have ht : pruneTargets g.nodes id = orphanSet g.nodes id := by
        unfold pruneTargets
        rw [if_pos hc]
      rw [ht]
      refine containsNode_removeOrphans_of_surviving g.nodes _ a n hmem hname ?_
      intro hin
      rcases mem_orphanSet_root_or_notEntry g.nodes id a hin with h1 | h2
      · exact hne h1
      · unfold isEntryName at h2
        rw [hl] at h2
        simp [he] at h2
    · rw [if_neg hc]
      unfold containsNode
      exact List.any_eq_true.2 ⟨n, hmem, by simp [hname]⟩
  · intro hc
    rw [e1, if_pos hc]
    have ht : pruneTargets g.nodes id = orphanSet g.nodes id := by
      unfold pruneTargets
      rw [if_pos hc]
    rw [ht]
    exact containsNode_removeOrphans_of_mem g.nodes _ id (root_mem_orphanSet g.nodes id)

theorem spec_c5_witness :
    containsNode (pruneNode entrySubCycleGraph "b").1.nodes "a" = true ∧
    containsNode (pruneNode entrySubCycleGraph "b").1.nodes "b" = false :=
  ⟨(spec_c5 entrySubCycleGraph "b" "a" ⟨"a", ["b"], [], true⟩).1 (by decide) rfl (by decide),
   (spec_c5 entrySubCycleGraph "b" "a" ⟨"a", ["b"], [], true⟩).2 (by decide)⟩

theorem spec_c1_witness :
    (Event.complete ∈ (handleCallback ⟨[], [⟨"a", true⟩]⟩ "a" (Except.ok [])).2 ↔
      anyValid (handleCallback ⟨[], [⟨"a", true⟩]⟩ "a" (Except.ok [])).1.pendingJobs = false) ∧
    (Event.complete ∈ (pruneNode ⟨[], [⟨"a", true⟩]⟩ "z").2 ↔
      anyValid (pruneNode ⟨[], [⟨"a", true⟩]⟩ "z").1.pendingJobs = false) :=
  ⟨(spec_c1 ⟨[], [⟨"a", true⟩]⟩ "a" (Except.ok []) ⟨"a", true⟩ "z").1 (by decide) rfl,
   (spec_c1 ⟨[], [⟨"a", true⟩]⟩ "a" (Except.ok []) ⟨"a", true⟩ "z").2⟩

/-- C9: when the job function's promise resolves against a stale record —
removed from the state, or recreated so its reference token no longer
matches — the post-resolution re-check returns an intercept, never the
resolved data. -/
theorem spec_c9 {α : Type} (st : List RSRecord) (ref : RSReference) (d : α) :
    (rsLookup st ref.name = none →
      jobPostCheck st ref d = JobOutcome.intercepted (Intercept.recordRemoved ref.name)) ∧
    (∀ r : RSRecord, rsLookup st ref.name = some r → r.reference ≠ ref.reference →
      jobPostCheck st ref d = JobOutcome.intercepted (Intercept.recordInvalid ref.name)) ∧
    ((rsLookup st ref.name = none ∨
      ∃ r : RSRecord, rsLookup st ref.name = some r ∧ r.reference ≠ ref.reference) →
      ∀ d' : α, jobPostCheck st ref d ≠ JobOutcome.data d') := by
  refine ⟨?_, ?_, ?_⟩
  · intro h
    unfold jobPostCheck createIntercept
    rw [h]
  · intro r h hne
    unfold jobPostCheck createIntercept
    rw [h]
    simp [hne]
  · intro h d'
    rcases h with h | ⟨r, h, hne⟩
    · unfold jobPostCheck createIntercept
      rw [h]
      simp
    · unfold jobPostCheck createIntercept
      rw [h]
      simp [hne]

theorem spec_c9_witness :
    jobPostCheck ([] : List RSRecord) ⟨"x", 0⟩ (0 : Nat)
        = JobOutcome.intercepted (Intercept.recordRemoved "x") ∧
    jobPostCheck [⟨"x", 1⟩] ⟨"x", 0⟩ (0 : Nat)
        = JobOutcome.intercepted (Intercept.recordInvalid "x") :=
  ⟨(spec_c9 ([] : List RSRecord) ⟨"x", 0⟩ (0 : Nat)).1 rfl,
   (spec_c9 [(⟨"x", 1⟩ : RSRecord)] ⟨"x", 0⟩ (0 : Nat)).2.1 ⟨"x", 1⟩ rfl (by decide)⟩

/-- C10: `buildBabylonAst` never lets an exception escape and invokes its
callback exactly once — with the parse error when the parser throws, and
with the syntax tree otherwise. -/
theorem spec_c10 {ε α : Type} (parse : String → BabylonOptions → Except ε α)
    (text : String) (options : Option BabylonOptions) :
    (∃ c : CbCall ε α, buildBabylonAst parse text options = Except.ok [c]) ∧
    (∀ e : ε, parse text (createBabylonOptions options) = Except.error e →
      buildBabylonAst parse text options = Except.ok [⟨some e, none⟩]) ∧
    (∀ a : α, parse text (createBabylonOptions options) = Except.ok a →
      buildBabylonAst parse text options = Except.ok [⟨none, some a⟩]) := by
  refine ⟨?_, ?_, ?_⟩
  · unfold buildBabylonAst
    cases h : parse text (createBabylonOptions options) with
    | error e => exact ⟨⟨some e, none⟩, by simp only [h]⟩
    | ok a => exact ⟨⟨none, some a⟩, by simp only [h]⟩
  · intro e h
    unfold buildBabylonAst
    simp only [h]
  · intro a h
    unfold buildBabylonAst
    simp only [h]

theorem spec_c10_witness :
    buildBabylonAst (fun _ _ => (Except.error "boom" : Except String Nat)) "x" none
        = Except.ok [⟨some "boom", none⟩] ∧
    buildBabylonAst (fun _ _ => (Except.ok 7 : Except String Nat)) "x" none
        = Except.ok [⟨none, some 7⟩] :=
  ⟨(spec_c10 (fun _ _ => (Except.error "boom" : Except String Nat)) "x" none).2.1 "boom" rfl,
   (spec_c10 (fun _ _ => (Except.ok 7 : Except String Nat)) "x" none).2.2 7 rfl⟩

theorem mem_ins (l : List String) (x a : String) : a ∈ ins l x ↔ a ∈ l ∨ a = x := by
  by_cases hc : x ∈ l
  · have hb : l.contains x = true := by simpa using hc
    unfold ins
    rw [if_pos hb]
    constructor
    · exact Or.inl
    · rintro (h | rfl)
      · exact h
      · exact hc
  · have hb : ¬l.contains x = true := by simpa using hc
    unfold ins
    rw [if_neg hb]
    simp

theorem containsNode_append (s t : List Node) (a : String) :
    containsNode (s ++ t) a = (containsNode s a || containsNode t a) := by
  unfold containsNode
  exact List.any_append

theorem containsNode_map_of_name (s : List Node) (f : Node → Node)
    (hf : ∀ n, (f n).name = n.name) (a : String) :
    containsNode (s.map f) a = containsNode s a := by
  unfold containsNode
  induction s with
  | nil => rfl
  | cons x xs ih => simp only [List.map_cons, List.any_cons, hf x, ih]

theorem map_name_of_preserve (s : List Node) (f : Node → Node)
    (hf : ∀ n, (f n).name = n.name) : (s.map f).map Node.name = s.map Node.name := by
  induction s with
  | nil => rfl
  | cons x xs ih => simp only [List.map_cons, hf x, ih]

theorem exists_of_containsNode (s : List Node) (a : String) (h : containsNode s a = true) :
    ∃ n ∈ s, n.name = a := by
  unfold containsNode at h
  rcases List.any_eq_true.1 h with ⟨n, hn, hb⟩
  exact ⟨n, hn, by simpa using hb⟩

theorem containsNode_of_mem (s : List Node) (n : Node) (hn : n ∈ s) (a : String)
    (hname : n.name = a) : containsNode s a = true := by
  unfold containsNode
  exact List.any_eq_true.2 ⟨n, hn, by simp [hname]⟩

theorem name_ne_of_not_contains (s : List Node) (a : String)
    (h : containsNode s a = false) : ∀ n ∈ s, n.name ≠ a := by
  unfold containsNode at h
  intro n hn
  have hb := List.any_eq_false.1 h n hn
  simpa using hb

theorem updEdge_deps_mem (eh et : String) (n : Node) (b : String) :
    b ∈ (updEdge eh et n).dependencies ↔ b ∈ n.dependencies ∨ (n.name = eh ∧ b = et) := by
  unfold updEdge
  by_cases hn : (n.name == eh) = true
  · rw [if_pos hn]
    have hn' : n.name = eh := by simpa using hn
    rw [mem_ins]
    simp [hn']
  · rw [if_neg hn]
    have hn' : n.name ≠ eh := by simpa using hn
    simp [hn']

theorem updEdge_depts_mem (eh et : String) (n : Node) (b : String) :
    b ∈ (updEdge eh et n).dependents ↔ b ∈ n.dependents ∨ (n.name = et ∧ b = eh) := by
  unfold updEdge
  by_cases hn : (n.name == et) = true
  · rw [if_pos hn]
    have hn' : n.name = et := by simpa using hn
    rw [mem_ins]
    simp [hn']
  · rw [if_neg hn]
    have hn' : n.name ≠ et := by simpa using hn
    simp [hn']

theorem storeInv_nil : StoreInv ([] : List Node) := by
  refine ⟨by simp, ?_, ?_, ?_⟩ <;> intro n hn <;> simp at hn

theorem storeInv_addNodeOp (s : List Node) (id : String) (h : StoreInv s) :
    StoreInv (addNodeOp s id) := by
  unfold addNodeOp
  by_cases hc : containsNode s id = true
  · rw [if_pos hc]
    exact h
  · rw [if_neg hc]
    have hc' : containsNode s id = false := by simpa using hc
    have hfresh : ∀ n ∈ s, n.name ≠ id := name_ne_of_not_contains s id hc'
    obtain ⟨hnd, hcd, hct, hsym⟩ := h
    refine ⟨?_, ?_, ?_, ?_⟩
    · rw [List.map_append, List.nodup_append]
      refine ⟨hnd, by simp, ?_⟩
      intro x hx
      rcases List.mem_map.1 hx with ⟨n, hn, rfl⟩
      simp only [List.map_cons, List.map_nil, List.mem_singleton]
      exact hfresh n hn
    · intro n hn b hb
      rcases List.mem_append.1 hn with hn | hn
      · rw [containsNode_append, hcd n hn b hb]
        simp
      · simp only [List.mem_singleton] at hn
        rw [hn] at hb
        simp at hb
    · intro n hn b hb
      rcases List.mem_append.1 hn with hn | hn
      · rw [containsNode_append, hct n hn b hb]
        simp
      · simp only [List.mem_singleton] at hn
        rw [hn] at hb
        simp at hb
    · intro n hn m hm
      rcases List.mem_append.1 hn with hn | hn <;> rcases List.mem_append.1 hm with hm | hm
      · exact hsym n hn m hm
      · simp only [List.mem_singleton] at hm
        subst hm
        refine iff_of_false ?_ (by simp)
        intro hmem
        have hcb := hcd n hn _ hmem
        simp [hc'] at hcb
      · simp only [List.mem_singleton] at hn
        subst hn
        refine iff_of_false (by simp) ?_
        intro hmem
        have hcb := hct m hm _ hmem
        simp [hc'] at hcb
      · simp only [List.mem_singleton] at hn hm
        subst hn
        subst hm
        simp

theorem storeInv_addEdgeOp (s : List Node) (eh et : String) (hI : StoreInv s) :
    StoreInv (addEdgeOp s eh et) := by
  unfold addEdgeOp
  by_cases hg : (containsNode s eh && containsNode s et) = true
  · rw [if_pos hg]
    rw [Bool.and_eq_true] at hg
    obtain ⟨hh, ht⟩ := hg
    obtain ⟨hnd, hcd, hct, hsym⟩ := hI
    refine ⟨?_, ?_, ?_, ?_⟩
    · rw [map_name_of_preserve s (updEdge eh et) (fun n => rfl)]
      exact hnd
    · intro n' hn' b hb
      rcases List.mem_map.1 hn' with ⟨n, hn, rfl⟩
      rw [containsNode_map_of_name s (updEdge eh et) (fun n => rfl)]
      rcases (updEdge_deps_mem eh et n b).1 hb with hb | ⟨-, rfl⟩
      · exact hcd n hn b hb
      · exact ht
    · intro n' hn' b hb
      rcases List.mem_map.1 hn' with ⟨n, hn, rfl⟩
      rw [containsNode_map_of_name s (updEdge eh et) (fun n => rfl)]
      rcases (updEdge_depts_mem eh et n b).1 hb with hb | ⟨-, rfl⟩
      · exact hct n hn b hb
      · exact hh
    · intro n' hn' m' hm'
      rcases List.mem_map.1 hn' with ⟨n, hn, rfl⟩
      rcases List.mem_map.1 hm' with ⟨m, hm, rfl⟩
      have hold := hsym n hn m hm
      have en : (updEdge eh et n).name = n.name := rfl
      have em : (updEdge eh et m).name = m.name := rfl
      rw [en, em, updEdge_deps_mem, updEdge_depts_mem]
      tauto
  · rw [if_neg hg]
    exact hI

theorem storeInv_removeOrphans (s : List Node) (o : List String) (hI : StoreInv s) :
    StoreInv (removeOrphans s o) := by
  obtain ⟨hnd, hcd, hct, hsym⟩ := hI
  have htrimname : ∀ n, (trimNode o n).name = n.name := fun n => rfl
  have htrimdeps : ∀ n, (trimNode o n).dependencies
      = n.dependencies.filter (fun d => !o.contains d) := fun n => rfl
  have htrimdepts : ∀ n, (trimNode o n).dependents
      = n.dependents.filter (fun d => !o.contains d) := fun n => rfl
  unfold removeOrphans
  refine ⟨?_, ?_, ?_, ?_⟩
  · rw [map_name_of_preserve _ (trimNode o) htrimname]
    exact (List.Sublist.map Node.name (List.filter_sublist s)).nodup hnd
  · intro n' hn' b hb
    rcases List.mem_map.1 hn' with ⟨n, hnf, rfl⟩
    rcases List.mem_filter.1 hnf with ⟨hn, hpn⟩
    rw [htrimdeps n] at hb
    rcases List.mem_filter.1 hb with ⟨hbd, hq⟩
    have hbo : b ∉ o := by simpa using hq
    rcases exists_of_containsNode s b (hcd n hn b hbd) with ⟨m, hm, hmname⟩
    refine containsNode_of_mem _ _ (List.mem_map_of_mem _ (List.mem_filter.2 ⟨hm, ?_⟩)) _ ?_
    · rw [hmname]
      simpa using hbo
    · rw [htrimname m]
      exact hmname
  · intro n' hn' b hb
    rcases List.mem_map.1 hn' with ⟨n, hnf, rfl⟩
    rcases List.mem_filter.1 hnf with ⟨hn, hpn⟩
    rw [htrimdepts n] at hb
    rcases List.mem_filter.1 hb with ⟨hbd, hq⟩
    have hbo : b ∉ o := by simpa using hq
    rcases exists_of_containsNode s b (hct n hn b hbd) with ⟨m, hm, hmname⟩
    refine containsNode_of_mem _ _ (List.mem_map_of_mem _ (List.mem_filter.2 ⟨hm, ?_⟩)) _ ?_
    · rw [hmname]
      simpa using hbo
    · rw [htrimname m]
      exact hmname
  · intro n' hn' m' hm'
    rcases List.mem_map.1 hn' with ⟨n, hnf, rfl⟩
    rcases List.mem_map.1 hm' with ⟨m, hmf, rfl⟩
    rcases List.mem_filter.1 hnf with ⟨hn, hpn⟩
    rcases List.mem_filter.1 hmf with ⟨hm, hpm⟩
    have hold := hsym n hn m hm
    rw [htrimname n, htrimname m, htrimdeps n, htrimdepts m, List.mem_filter, List.mem_filter]
    constructor
    · rintro ⟨h1, -⟩
      exact ⟨hold.1 h1, hpn⟩
    · rintro ⟨h1, -⟩
      exact ⟨hold.2 h1, hpm⟩

theorem storeInv_map_preserve (s : List Node) (f : Node → Node)
    (hname : ∀ n, (f n).name = n.name)
    (hdeps : ∀ n, (f n).dependencies = n.dependencies)
    (hdepts : ∀ n, (f n).dependents = n.dependents)
    (hI : StoreInv s) : StoreInv (s.map f) := by
  obtain ⟨hnd, hcd, hct, hsym⟩ := hI
  refine ⟨?_, ?_, ?_, ?_⟩
  · rw [map_name_of_preserve s f hname]
    exact hnd
  · intro n' hn' b hb
    rcases List.mem_map.1 hn' with ⟨n, hn, rfl⟩
    rw [hdeps n] at hb
    rw [containsNode_map_of_name s f hname]
    exact hcd n hn b hb
  · intro n' hn' b hb
    rcases List.mem_map.1 hn' with ⟨n, hn, rfl⟩
    rw [hdepts n] at hb
    rw [containsNode_map_of_name s f hname]
    exact hct n hn b hb
  · intro n' hn' m' hm'
    rcases List.mem_map.1 hn' with ⟨n, hn, rfl⟩
    rcases List.mem_map.1 hm' with ⟨m, hm, rfl⟩
    rw [hname n, hname m, hdeps n, hdepts m]
    exact hsym n hn m hm

theorem storeInv_setEntryOp (s : List Node) (id : String) (hI : StoreInv s) :
    StoreInv (setEntryOp s id) := by
  refine storeInv_map_preserve s _ ?_ ?_ ?_ hI <;>
    intro n <;> by_cases hb : (n.name == id) = true <;> simp [hb]

theorem storeInv_unsetEntryOp (s : List Node) (id : String) (hI : StoreInv s) :
    StoreInv (unsetEntryOp s id) := by
  refine storeInv_map_preserve s _ ?_ ?_ ?_ hI <;>
    intro n <;> by_cases hb : (n.name == id) = true <;> simp [hb]

theorem storeInv_consumeDeps (id : String) :
    ∀ (deps : List String) (s : List Node) (js : List Job),
      StoreInv s → StoreInv (consumeDeps id deps s js).1 := by
  intro deps
  induction deps with
  | nil => intro s js h; exact h
  | cons d rest ih =>
    intro s js h
    exact ih _ _ (storeInv_addEdgeOp _ _ _ (storeInv_addNodeOp _ _ h))

theorem storeInv_handleCallback (g : GraphState) (id : String)
    (res : Except String (List String)) (h : StoreInv g.nodes) :
    StoreInv (handleCallback g id res).1.nodes := by
  unfold handleCallback
  cases hf : g.pendingJobs.find? (fun j => j.node == id) with
  | none => exact h
  | some j =>
    by_cases hv : j.isValid = true
    · cases res with
      | error e =>
        simp only [handleFound, hv, if_true]
        exact h
      | ok deps =>
        simp only [handleFound, hv, if_true]
        exact storeInv_consumeDeps id deps _ _ (storeInv_addNodeOp _ _ h)
    · simp only [handleFound, hv, if_false]
      exact h

theorem storeInv_pruneNode (g : GraphState) (id : String) (h : StoreInv g.nodes) :
    StoreInv (pruneNode g id).1.nodes := by
  have e1 : (pruneNode g id).1.nodes
      = if containsNode g.nodes id then removeOrphans g.nodes (pruneTargets g.nodes id)
        else g.nodes := rfl
  rw [e1]
  by_cases hc : containsNode g.nodes id = true
  · rw [if_pos hc]
    exact storeInv_removeOrphans _ _ h
  · rw [if_neg hc]
    exact h

theorem storeInv_addChain (chain : List String) :
    ∀ s : List Node, StoreInv s → StoreInv (addChain s chain) := by
  induction chain with
  | nil => intro s h; exact h
  | cons x rest ih =>
    intro s h
    cases rest with
    | nil => exact storeInv_addNodeOp s x h
    | cons y rest2 =>
      exact ih _ (storeInv_addEdgeOp _ _ _ (storeInv_addNodeOp _ _ (storeInv_addNodeOp _ _ h)))

theorem storeInv_nodesFromChains (chains : List (List String)) :
    StoreInv (nodesFromChains chains) := by
  unfold nodesFromChains
  have hgen : ∀ (cs : List (List String)) (s : List Node),
      StoreInv s → StoreInv (cs.foldl addChain s) := by
    intro cs
    induction cs with
    | nil => intro s h; exact h
    | cons c cs ih => intro s h; exact ih _ (storeInv_addChain c s h)
  exact hgen chains [] storeInv_nil

theorem reachable_storeInv (g : GraphState) (h : Reachable g) : StoreInv g.nodes := by
  induction h with
  | empty => exact storeInv_nil
  | fromChains chains => exact storeInv_nodesFromChains chains
  | trace g id hg ih => exact ih
  | callback g id res hg ih => exact storeInv_handleCallback g id res ih
  | prune g id hg ih => exact storeInv_pruneNode g id ih
  | setEntry g id hg ih => exact storeInv_setEntryOp g.nodes id ih
  | unsetEntry g id hg ih => exact storeInv_unsetEntryOp g.nodes id ih
  | pushJob g j hg ih => exact ih

/-- C8: in every snapshot reachable by any sequence of operations, edges
are symmetric — `b` is among `a`'s dependencies iff `a` is among `b`'s
dependents — and every listed dependency names a node present in the
store. -/
theorem spec_c8 (g : GraphState) (hg : Reachable g) (a b : String) (na nb : Node)
    (ha : lookupNode g.nodes a = some na) (hb : lookupNode g.nodes b = some nb) :
    (b ∈ na.dependencies ↔ a ∈ nb.dependents) ∧
    (∀ c ∈ na.dependencies, containsNode g.nodes c = true) := by
  have hInv := reachable_storeInv g hg
  have hmema : na ∈ g.nodes := List.mem_of_find?_eq_some ha
  have hnamea : na.name = a := by simpa using List.find?_some ha
  have hmemb : nb ∈ g.nodes := List.mem_of_find?_eq_some hb
  have hnameb : nb.name = b := by simpa using List.find?_some hb
  constructor
  · have hs := hInv.2.2.2 na hmema nb hmemb
    rw [hnamea, hnameb] at hs
    exact hs
  · intro c hc
    exact hInv.2.1 na hmema c hc

theorem spec_c8_witness :
    ("b" ∈ (Node.mk "a" ["b"] [] false).dependencies ↔
      "a" ∈ (Node.mk "b" [] ["a"] false).dependents) ∧
    (∀ c ∈ (Node.mk "a" ["b"] [] false).dependencies,
      containsNode (nodesFromChains [["a", "b"]]) c = true) :=
  spec_c8 ⟨nodesFromChains [["a", "b"]], []⟩ (Reachable.fromChains [["a", "b"]])
    "a" "b" (Node.mk "a" ["b"] [] false) (Node.mk "b" [] ["a"] false)
    (by decide) (by decide)

end Chubs
